import Mathlib

/-!
# FileCopier: a shallow embedding of `filecopier.go`

The program walks a destination tree, and for every leaf directory copies the
files matching a pattern from the parallel source directory; it can also remove
directories that stay empty, cascading upward.

Modelling decisions (everything else follows the Go source line by line):

* Go strings are `List Char`; `strings.Replace`, `strings.TrimPrefix`,
  `strings.Join` and `strings.LastIndex` are list functions.
* The file system is a finite map from component lists to nodes.  A path string
  is resolved the way Windows does it: both separators split components and
  empty components are dropped.  Components `.` and `..` and drive-relative
  forms are outside the model.
* `filepath.Glob(dir + sep + pat)` is the sorted listing of `dir`, filtered by
  the pattern, each name joined to `dir`; the pattern is a predicate on names
  (it stands for `filepath.Match(pattern, name)`), and directory names are
  taken to be free of glob metacharacters.
* Time is a logical clock: a write stamps the file with the clock, and the
  clock then advances.
* A run-time panic (nil dereference, slice bounds out of range) is an outcome of
  its own that carries the state at the moment of the crash, since the effects
  on the file system persist.
* Recursion runs on fuel.  `deleteDirectory` gets the length of the path plus
  one, which is proved never to run out; `filepath.Walk` takes its fuel as an
  argument, and a fuel above the depth of the tree is proved to suffice for a
  run that copies nothing.
* Output (`fmt.Printf`) and the closing of file handles are not modelled.
-/

namespace FileCopier

/-! ## Strings -/

/-- A Go string used as a path. -/
abbrev Path := List Char

/-- A single path component (a file or directory name). -/
abbrev Name := List Char

/-- The backslash, the separator the program hard-codes. -/
def bslash : Char := Char.ofNat 92

/-- The forward slash, which Windows accepts as a separator too. -/
def fslash : Char := Char.ofNat 47

/-- Go `strings.Replace(s, "/", "\\", -1)`. -/
def replaceSlash (s : Path) : Path :=
  s.map (fun c => if c = fslash then bslash else c)

/-- Go `strings.TrimPrefix(s, pre)`. -/
def trimPrefix (s pre : Path) : Path :=
  if pre.isPrefixOf s then s.drop pre.length else s

/-- Go `strings.LastIndex(s, "\\")`; `none` stands for the result `-1`. -/
def lastIndex : Path → Option Nat
  | [] => none
  | c :: cs =>
    match lastIndex cs with
    | some i => some (i + 1)
    | none => if c = bslash then some 0 else none

/-! ## Path resolution -/

/-- Is the character one of the two Windows separators? -/
def isSep (c : Char) : Bool := c = bslash ∨ c = fslash

/-- One step of the right-to-left scan that cuts a path into components: the
first field is the component being read, the second the components already
complete. -/
def splitStep (c : Char) (acc : Name × List Name) : Name × List Name :=
  if isSep c then ([], if acc.1 = [] then acc.2 else acc.1 :: acc.2)
  else (c :: acc.1, acc.2)

/-- The components a path string names, empty components dropped. -/
def resolve (p : Path) : List Name :=
  let r := p.foldr splitStep ([], [])
  if r.1 = [] then r.2 else r.1 :: r.2

/-- Go `filepath.Clean` on the paths the model covers: components joined by a
single backslash, a leading separator kept, the empty path turned into a dot. -/
def cleanPath (p : Path) : Path :=
  let body := [bslash].intercalate (resolve p)
  match p with
  | [] => ['.']
  | c :: _ => if isSep c then bslash :: body else if body = [] then ['.'] else body

/-- Go `filepath.Join(p, n)`. -/
def joinPath (p : Path) (n : Name) : Path :=
  if p = [] then cleanPath n else cleanPath (p ++ bslash :: n)

/-! ## File system -/

/-- A file or a directory; `data` is the content of a file. -/
structure Node where
  isDir : Bool
  modTime : Nat
  data : List Nat
deriving DecidableEq, Repr

/-- The file system: entries keyed by their component path.  The root (the
empty component list) is always a directory and has no entry. -/
abbrev FS := List (List Name × Node)

/-- The entry stored under a key, if any. -/
def lookup : FS → List Name → Option Node
  | [], _ => none
  | (k, n) :: rest, q => if k = q then some n else lookup rest q

/-- The node at a component path; the root is a directory. -/
def nodeAt (fs : FS) (q : List Name) : Option Node :=
  if q = [] then some ⟨true, 0, []⟩ else lookup fs q

/-- Is the key `k` a direct child of the directory `q`? -/
def isChildKey (q k : List Name) : Bool := k ≠ [] ∧ k.dropLast = q

/-- Go `os.FileInfo`, as far as the program reads it. -/
structure FileInfo where
  name : Name
  isDir : Bool
  modTime : Nat
deriving DecidableEq, Repr

/-- The base name `FileInfo.Name()` reports for a resolved path. -/
def baseName (q : List Name) : Name := q.getLastD [bslash]

/-- Go `os.Stat` (and `os.Lstat`: there are no links in the model); `none` is
the not-exist error, and with it the nil `FileInfo`. -/
def stat (fs : FS) (p : Path) : Option FileInfo :=
  if p = [] then none
  else (nodeAt fs (resolve p)).map (fun n => ⟨baseName (resolve p), n.isDir, n.modTime⟩)

/-- Does the directory `q` hold at least one entry? -/
def hasChild (fs : FS) (q : List Name) : Bool := fs.any (fun e => isChildKey q e.1)

/-- Go `os.Remove`: removes a file or an empty directory; `none` is an error
(missing path, non-empty directory, or the root). -/
def remove (fs : FS) (p : Path) : Option FS :=
  if p = [] ∨ resolve p = [] then none
  else
    match lookup fs (resolve p) with
    | none => none
    | some n =>
      if n.isDir && hasChild fs (resolve p) then none
      else some (fs.filter (fun e => decide (e.1 ≠ resolve p)))

/-- Bytewise order on names, as `sort.Strings` uses it. -/
def nameLe : Name → Name → Bool
  | [], _ => true
  | _ :: _, [] => false
  | a :: as, b :: bs => a.toNat < b.toNat ∨ (a = b ∧ nameLe as bs)

/-- Insertion of a name into a sorted list of names. -/
def insertName (n : Name) : List Name → List Name
  | [] => [n]
  | m :: ms => if nameLe n m then n :: m :: ms else m :: insertName n ms

/-- Go `sort.Strings`. -/
def sortNames : List Name → List Name
  | [] => []
  | n :: ns => insertName n (sortNames ns)

/-- Go `readDirNames`: the sorted names of the entries of a directory. -/
def readDirNames (fs : FS) (p : Path) : List Name :=
  sortNames ((fs.filter (fun e => isChildKey (resolve p) e.1)).map (fun e => baseName e.1))

/-- Go `filepath.Glob(dir + sep + pattern)` for a one-component pattern: the
entries of `dir` whose name matches, each joined to `dir`.  A missing `dir`, or
one that is a file, gives no match. -/
def glob (fs : FS) (dir : Path) (pat : Name → Bool) : List Path :=
  match stat fs dir with
  | none => []
  | some fi =>
    if fi.isDir then ((readDirNames fs dir).filter pat).map (joinPath dir) else []

/-- Replace the node stored under a key. -/
def setNode (fs : FS) (q : List Name) (n : Node) : FS :=
  fs.map (fun e => if e.1 = q then (e.1, n) else e)

/-- Writing `src` at offset zero of a file that holds `old`, without truncating
it: the bytes of `old` beyond the length of `src` stay. -/
def overwrite (src old : List Nat) : List Nat := src ++ old.drop src.length

/-! ## Program state -/

/-- The command-line configuration (`dest`, `source`, `ext`, `delete`, `before`,
`maintain`). -/
structure Config where
  dest : Path
  source : Path
  pattern : Name → Bool
  deleteEmpty : Bool
  deleteEmptyBefore : Bool
  maintainOriginal : Bool

/-- The file system, the clock and the four global counters. -/
structure State where
  fs : FS
  clock : Nat
  copied : Nat
  skipped : Nat
  noMatch : Nat
  deleted : Nat
deriving DecidableEq, Repr

/-- How a call ends: it returns nil, returns an error, crashes, or the model
runs out of fuel.  Each carries the state reached. -/
inductive Outcome where
  | ok (st : State)
  | failed (st : State)
  | panicked (st : State)
  | outOfFuel (st : State)
deriving DecidableEq, Repr

/-- The state an outcome carries. -/
def Outcome.state : Outcome → State
  | .ok st => st
  | .failed st => st
  | .panicked st => st
  | .outOfFuel st => st

/-- The bytes `io.Copy` reads from the opened source: nothing when the open
failed or the source is a directory. -/
def sourceBytes (fs : FS) (file : Path) : List Nat :=
  match nodeAt fs (resolve file) with
  | some n => if n.isDir then [] else n.data
  | none => []

/-- Lines 105 to 112: open the source, open the destination with
`O_RDWR|O_CREATE` (no truncation), copy.  A destination that is missing is
created empty when its directory exists; a write of at least one byte stamps
the file with the clock.  Failures are ignored, as the source ignores them. -/
def copyFile (fs : FS) (clock : Nat) (file dst : Path) : FS :=
  let src := sourceBytes fs file
  let q := resolve dst
  match nodeAt fs q with
  | some n =>
    if n.isDir then fs
    else if src = [] then fs
    else setNode fs q ⟨false, clock, overwrite src n.data⟩
  | none =>
    match nodeAt fs q.dropLast with
    | some d => if d.isDir then fs ++ [(q, ⟨false, clock, src⟩)] else fs
    | none => fs

/-! ## The program -/

/-- A call of `deleteDirectory` whose returned error the caller drops. -/
def ignoreError : Outcome → Outcome
  | .failed s => .ok s
  | o => o

/-- A call of `deleteDirectory` whose returned error makes the caller run
`onErr` on the state. -/
def onError (onErr : State → State) : Outcome → Outcome
  | .failed s => .ok (onErr s)
  | o => o

/-- The body of `deleteDirectory`, with fuel for the recursive call on the
parent; the result of that call is dropped and nil returned (lines 168, 169). -/
def deleteDirectoryAux (dest : Path) : Nat → Path → State → Outcome
  | 0, _, st => .outOfFuel st
  | fuel + 1, path, st =>
    match stat st.fs path with
    | none => .panicked st
    | some dir =>
      if dir.isDir then
        match lastIndex path with
        | none => .panicked st
        | some i =>
          let parent := path.take i
          if path = dest then .ok st
          else
            match remove st.fs path with
            | none => .failed st
            | some fs1 =>
              let st1 := { st with fs := fs1, deleted := st.deleted + 1 }
              ignoreError (deleteDirectoryAux dest fuel parent st1)
      else .failed st

/-- Go `deleteDirectory(path)`.  The parent is strictly shorter than the path,
so a fuel of the length of the path plus one is never used up. -/
def deleteDirectory (cfg : Config) (path : Path) (st : State) : Outcome :=
  deleteDirectoryAux cfg.dest (path.length + 1) path st

/-- Lines 66 to 72: the loop that decides whether a directory is a leaf.  A
`none` result is the panic of calling `IsDir` on a nil `FileInfo`. -/
def isLeafLoop (fs : FS) : List Path → Bool → Option Bool
  | [], isLeaf => some isLeaf
  | file :: rest, isLeaf =>
    match stat fs file with
    | none => none
    | some isDirec => isLeafLoop fs rest (if isDirec.isDir then false else isLeaf)

/-- The condition of line 103. -/
def shouldCopy (cfg : Config) (destDet : Option FileInfo) (fileDetails : FileInfo) : Bool :=
  match destDet with
  | none => true
  | some d => !cfg.maintainOriginal && decide (d.modTime < fileDetails.modTime)

/-- Lines 97 to 116: the loop over `sourceMatching`; the second component of
the result is `dirCopy`. -/
def copyLoop (cfg : Config) (path : Path) : List Path → State → Nat → Outcome × Nat
  | [], st, dirCopy => (.ok st, dirCopy)
  | file :: rest, st, dirCopy =>
    match stat st.fs file with
    | none => (.panicked st, dirCopy)
    | some fileDetails =>
      let destinationPath := path ++ bslash :: fileDetails.name
      let destDet := stat st.fs destinationPath
      if shouldCopy cfg destDet fileDetails then
        copyLoop cfg path rest
          { st with fs := copyFile st.fs st.clock file destinationPath,
                    clock := st.clock + 1,
                    copied := st.copied + 1 }
          (dirCopy + 1)
      else copyLoop cfg path rest st dirCopy

/-- Line 79: the relative key of a leaf. -/
def folderPath (cfg : Config) (path : Path) : Path :=
  trimPrefix path (replaceSlash cfg.dest ++ [bslash])

/-- Line 80: the source directory that corresponds to a leaf. -/
def sourcePath (cfg : Config) (path : Path) : Path :=
  replaceSlash cfg.source ++ bslash :: folderPath cfg path

/-- Lines 76 to 143: the Sync Engine, the body of the `isLeaf` branch. -/
def syncLeaf (cfg : Config) (path : Path) (st : State) : Outcome :=
  let sourceMatching := glob st.fs (sourcePath cfg path) cfg.pattern
  let fileList := glob st.fs path (fun _ => true)
  if cfg.deleteEmptyBefore && fileList.length == 0 then
    ignoreError (deleteDirectory cfg path st)
  else if sourceMatching.length > 0 then
    match copyLoop cfg path sourceMatching st 0 with
    | (.ok st1, dirCopy) =>
      if dirCopy > 0 then .ok st1
      else if cfg.deleteEmpty then
        onError (fun s => { s with skipped := s.skipped + 1 }) (deleteDirectory cfg path st1)
      else .ok { st1 with skipped := st1.skipped + 1 }
    | (o, _) => o
  else if cfg.deleteEmpty then
    onError (fun s => { s with noMatch := s.noMatch + 1 }) (deleteDirectory cfg path st)
  else .ok { st with noMatch := st.noMatch + 1 }

/-- Go `visit(path, f, err)`; it always returns nil unless it crashes. -/
def visit (cfg : Config) (path : Path) (f : Option FileInfo) (st : State) : Outcome :=
  match f with
  | none => .panicked st
  | some fi =>
    if fi.isDir then
      match isLeafLoop st.fs (glob st.fs path (fun _ => true)) true with
      | none => .panicked st
      | some isLeaf => if isLeaf then syncLeaf cfg path st else .ok st
    else .ok st

/-- The loop of `filepath.walk` over the names read from a directory; `rec` is
the recursive call of `walk`. -/
def walkNames (cfg : Config) (rec : Path → FileInfo → State → Outcome) (path : Path) :
    List Name → State → Outcome
  | [], st => .ok st
  | name :: names, st =>
    let filename := joinPath path name
    match stat st.fs filename with
    | none =>
      match visit cfg filename none st with
      | .ok st1 => walkNames cfg rec path names st1
      | o => o
    | some fileInfo =>
      match rec filename fileInfo st with
      | .ok st1 => walkNames cfg rec path names st1
      | o => o

/-- Go `filepath.walk`: a file is passed to `visit`; for a directory the names
are read first, then `visit` runs on the directory, then each entry is walked. -/
def walk (cfg : Config) : Nat → Path → FileInfo → State → Outcome
  | 0, _, _, st => .outOfFuel st
  | fuel + 1, path, info, st =>
    if info.isDir then
      let names := readDirNames st.fs path
      match visit cfg path (some info) st with
      | .ok st1 => walkNames cfg (walk cfg fuel) path names st1
      | o => o
    else visit cfg path (some info) st

/-- Line 46: `filepath.Walk(*dest, visit)`. -/
def syncRun (cfg : Config) (fuel : Nat) (st : State) : Outcome :=
  match stat st.fs cfg.dest with
  | none => visit cfg cfg.dest none st
  | some info => walk cfg fuel cfg.dest info st

/-! ## Predicates used in the statements -/

/-- A well-formed component: not empty and free of separators. -/
def validName (n : Name) : Bool := n ≠ [] ∧ ∀ c ∈ n, isSep c = false

/-- The right-to-left scan of a path. -/
def scan (p : Path) : Name × List Name := p.foldr splitStep ([], [])

/-- Closing the component being read. -/
def close (r : Name × List Name) : List Name := if r.1 = [] then r.2 else r.1 :: r.2

/-- A well-formed key: not the root, every component a valid name. -/
def goodKey (k : List Name) : Bool := k ≠ [] ∧ ∀ x ∈ k, validName x = true

/-- Is there a directory at the component path? -/
def isDirAt (fs : FS) (q : List Name) : Bool :=
  match nodeAt fs q with
  | some n => n.isDir
  | none => false

/-- Well-formedness as `lookup` sees it: every entry has a well-formed key and
lies in a directory. -/
def WF (fs : FS) : Prop :=
  ∀ k, lookup fs k ≠ none → goodKey k = true ∧ isDirAt fs k.dropLast = true

/-- What a run without deletion keeps true of the file system and the clock: the
file system is well formed, no entry is dated after the clock, and every entry
below the source root that matches the pattern is a file of at least one byte. -/
structure RunInv (cfg : Config) (fs : FS) (clock : Nat) : Prop where
  wf : WF fs
  time : ∀ k n, lookup fs k = some n → n.modTime ≤ clock
  src : ∀ k n, resolve cfg.source <+: k → cfg.pattern (baseName k) = true →
    lookup fs k = some n → n.isDir = false ∧ n.data ≠ []

/-- A directory node of the examples. -/
def dirNode : Node := ⟨true, 0, []⟩

/-- The pattern of the examples: it matches the name `folder.jpg`. -/
def isFolderJpg (n : Name) : Bool := n = "folder.jpg".data

/-- Relative roots `music` and `orig`, all options off. -/
def cfgMusic : Config := ⟨"music".data, "orig".data, isFolderJpg, false, false, false⟩

/-- The leaf `music\A` holds a `folder.jpg` of five bytes dated 3; the source
`orig\A` holds one of two bytes dated 7. -/
def fsLonger : FS :=
  [(["music".data], dirNode),
   (["music".data, "A".data], dirNode),
   (["music".data, "A".data, "folder.jpg".data], ⟨false, 3, [1, 2, 3, 4, 5]⟩),
   (["orig".data], dirNode),
   (["orig".data, "A".data], dirNode),
   (["orig".data, "A".data, "folder.jpg".data], ⟨false, 7, [8, 9]⟩)]

/-- The tree `fsLonger` with the clock at 100 and the counters at zero. -/
def stLonger : State := ⟨fsLonger, 100, 0, 0, 0, 0⟩

/-- The tree `fsLonger` after one run of `cfgMusic`. -/
def fsLongerAfter : FS :=
  [(["music".data], dirNode),
   (["music".data, "A".data], dirNode),
   (["music".data, "A".data, "folder.jpg".data], ⟨false, 100, [8, 9, 3, 4, 5]⟩),
   (["orig".data], dirNode),
   (["orig".data, "A".data], dirNode),
   (["orig".data, "A".data, "folder.jpg".data], ⟨false, 7, [8, 9]⟩)]

/-- The destination root written with a forward slash, the option `before` on. -/
def cfgSlash : Config :=
  ⟨"top\\x\\y/music".data, "top\\orig".data, isFolderJpg, false, true, false⟩

/-- The root `top\x\y\music` holds only the empty leaf `A`; `top\x\y` holds only
the root; `top\x` holds a file besides. -/
def fsSlash : FS :=
  [(["top".data], dirNode),
   (["top".data, "x".data], dirNode),
   (["top".data, "x".data, "keep.txt".data], ⟨false, 5, [1]⟩),
   (["top".data, "x".data, "y".data], dirNode),
   (["top".data, "x".data, "y".data, "music".data], dirNode),
   (["top".data, "x".data, "y".data, "music".data, "A".data], dirNode),
   (["top".data, "orig".data], dirNode)]

/-- The tree `fsSlash`, clock at 100, counters at zero. -/
def stSlash : State := ⟨fsSlash, 100, 0, 0, 0, 0⟩

/-- The options of `cfgMusic` with `before` on. -/
def cfgBefore : Config := { cfgMusic with deleteEmptyBefore := true }

/-- The source `folder.jpg` is dated 500, after the clock of the examples. -/
def fsFuture : FS :=
  [(["music".data], dirNode),
   (["music".data, "A".data], dirNode),
   (["orig".data], dirNode),
   (["orig".data, "A".data], dirNode),
   (["orig".data, "A".data, "folder.jpg".data], ⟨false, 500, [8, 9]⟩)]

/-- A state on the given tree, clock at 100, counters at zero. -/
def stOn (fs : FS) : State := ⟨fs, 100, 0, 0, 0, 0⟩

/-- A source root written with a forward slash. -/
def cfgForward : Config := ⟨"d".data, "a/b".data, isFolderJpg, false, false, false⟩

theorem resolve_eq (p : Path) : resolve p = close (scan p) := rfl

theorem isSep_bslash : isSep bslash = true := by decide

theorem scan_cons (c : Char) (p : Path) : scan (c :: p) = splitStep c (scan p) := rfl

theorem foldr_splitStep_nil (p : Path) (a0 : List Name) :
    p.foldr splitStep ([], a0) = ((scan p).1, (scan p).2 ++ a0) := by
  induction p with
  | nil => rfl
  | cons c cs ih =>
    simp only [List.foldr_cons, ih, scan_cons]
    unfold splitStep
    by_cases hc : isSep c = true
    · simp only [hc, if_true]
      by_cases h1 : (scan cs).1 = []
      · simp [h1]
      · simp [h1]
    · simp [hc]

theorem resolve_append_sep (a b : Path) (c : Char) (hc : isSep c = true) :
    resolve (a ++ c :: b) = resolve a ++ resolve b := by
  have h : (a ++ c :: b).foldr splitStep ([], []) = a.foldr splitStep ([], resolve b) := by
    rw [List.foldr_append, List.foldr_cons]
    congr 1
    show splitStep c (scan b) = _
    unfold splitStep
    simp [hc, resolve_eq, close]
  show close ((a ++ c :: b).foldr splitStep ([], [])) = _
  rw [h, foldr_splitStep_nil]
  simp only [resolve_eq, close]
  by_cases h1 : (scan a).1 = []
  · simp [h1]
  · simp [h1]

theorem scan_noSep (n : Name) (h : ∀ c ∈ n, isSep c = false) : scan n = (n, []) := by
  induction n with
  | nil => rfl
  | cons c cs ih =>
    rw [scan_cons, ih (fun x hx => h x (List.mem_cons_of_mem _ hx))]
    unfold splitStep
    simp [h c (List.mem_cons_self _ _)]

theorem validName_iff (n : Name) : validName n = true ↔ n ≠ [] ∧ ∀ c ∈ n, isSep c = false := by
  simp [validName]

theorem resolve_name (n : Name) (h : validName n = true) : resolve n = [n] := by
  rw [validName_iff] at h
  rw [resolve_eq, scan_noSep n h.2]
  simp [close, h.1]

theorem resolve_append_name (p : Path) (n : Name) (h : validName n = true) :
    resolve (p ++ bslash :: n) = resolve p ++ [n] := by
  rw [resolve_append_sep p n bslash isSep_bslash, resolve_name n h]

theorem resolve_ne_nil_of_head (c : Char) (p : Path) (hc : isSep c = false) :
    resolve (c :: p) ≠ [] := by
  rw [resolve_eq, scan_cons]
  unfold splitStep close
  simp [hc]

theorem lastIndex_lt (p : Path) (i : Nat) (h : lastIndex p = some i) : i < p.length := by
  induction p generalizing i with
  | nil => simp [lastIndex] at h
  | cons c cs ih =>
    unfold lastIndex at h
    cases hl : lastIndex cs with
    | some j =>
      simp only [hl] at h
      have := ih j hl
      simp only [Option.some.injEq] at h
      subst h
      simp
      omega
    | none =>
      simp only [hl] at h
      by_cases hc : c = bslash
      · simp [hc] at h
        subst h
        simp
      · simp [hc] at h

theorem trimPrefix_append (pre rest : Path) : trimPrefix (pre ++ rest) pre = rest := by
  unfold trimPrefix
  have : pre.isPrefixOf (pre ++ rest) = true := by
    rw [List.isPrefixOf_iff_prefix]
    exact List.prefix_append _ _
  simp [this]

/-! ## Facts about the file system -/

theorem lookup_cons (k1 : List Name) (n1 : Node) (rest : FS) (q : List Name) :
    lookup ((k1, n1) :: rest) q = if k1 = q then some n1 else lookup rest q := rfl

theorem lookup_nil (q : List Name) : lookup [] q = none := rfl

theorem lookup_ne_none_iff (fs : FS) (k : List Name) :
    lookup fs k ≠ none ↔ ∃ e ∈ fs, e.1 = k := by
  induction fs with
  | nil =>
    rw [lookup_nil]
    constructor
    · intro h; exact absurd rfl h
    · rintro ⟨e, he, _⟩; exact absurd he (List.not_mem_nil e)
  | cons e rest ih =>
    obtain ⟨k1, n1⟩ := e
    rw [lookup_cons]
    by_cases hk : k1 = k
    · rw [if_pos hk]
      constructor
      · intro _; exact ⟨(k1, n1), List.mem_cons_self _ _, hk⟩
      · intro _ h; cases h
    · rw [if_neg hk, ih]
      constructor
      · rintro ⟨e, he, h⟩; exact ⟨e, List.mem_cons_of_mem _ he, h⟩
      · rintro ⟨e, he, h⟩
        rcases List.mem_cons.1 he with rfl | he
        · exact absurd h hk
        · exact ⟨e, he, h⟩

theorem lookup_none_iff (fs : FS) (k : List Name) :
    lookup fs k = none ↔ ∀ e ∈ fs, e.1 ≠ k := by
  have := lookup_ne_none_iff fs k
  constructor
  · intro h e he hk
    exact (this.2 ⟨e, he, hk⟩) h
  · intro h
    by_contra hn
    obtain ⟨e, he, hk⟩ := this.1 hn
    exact h e he hk

theorem stat_eq_some (fs : FS) (p : Path) (fi : FileInfo) :
    stat fs p = some fi ↔
      p ≠ [] ∧ ∃ n, nodeAt fs (resolve p) = some n ∧
        fi = ⟨baseName (resolve p), n.isDir, n.modTime⟩ := by
  unfold stat
  by_cases hp : p = []
  · simp [hp]
  · simp only [hp, if_false, Option.map_eq_some', ne_eq, not_false_eq_true, true_and]
    constructor
    · rintro ⟨n, h1, h2⟩; exact ⟨n, h1, h2.symm⟩
    · rintro ⟨n, h1, h2⟩; exact ⟨n, h1, h2.symm⟩

theorem nodeAt_of_ne_nil (fs : FS) (q : List Name) (h : q ≠ []) : nodeAt fs q = lookup fs q := by
  simp [nodeAt, h]

theorem deleteDirectoryAux_fuel (dest : Path) (f1 f2 : Nat) (path : Path) (st : State)
    (h1 : path.length < f1) (h2 : path.length < f2) :
    deleteDirectoryAux dest f1 path st = deleteDirectoryAux dest f2 path st := by
  induction f1 generalizing f2 path st with
  | zero => omega
  | succ a ih =>
    cases f2 with
    | zero => omega
    | succ b =>
      rw [deleteDirectoryAux, deleteDirectoryAux]
      cases hs : stat st.fs path with
      | none => rfl
      | some dir =>
        by_cases hd : dir.isDir = true
        · simp only [hd, if_true]
          cases hl : lastIndex path with
          | none => rfl
          | some i =>
            by_cases hp : path = dest
            · simp [hp]
            · simp only [hp, if_false]
              cases hr : remove st.fs path with
              | none => rfl
              | some fs1 =>
                have hlt := lastIndex_lt path i hl
                have hlen : (path.take i).length = i := by simp; omega
                simp only
                rw [ih b (path.take i) _ (by omega) (by omega)]
        · simp [hd]

/-- The defining equation of `deleteDirectory`, the fuel out of sight. -/
theorem deleteDirectory_eq (cfg : Config) (path : Path) (st : State) :
    deleteDirectory cfg path st =
      match stat st.fs path with
      | none => .panicked st
      | some dir =>
        if dir.isDir then
          match lastIndex path with
          | none => .panicked st
          | some i =>
            if path = cfg.dest then .ok st
            else
              match remove st.fs path with
              | none => .failed st
              | some fs1 =>
                ignoreError (deleteDirectory cfg (path.take i)
                  { st with fs := fs1, deleted := st.deleted + 1 })
        else .failed st := by
  unfold deleteDirectory
  rw [deleteDirectoryAux]
  cases hs : stat st.fs path with
  | none => rfl
  | some dir =>
    by_cases hd : dir.isDir = true
    · simp only [hd, if_true]
      cases hl : lastIndex path with
      | none => rfl
      | some i =>
        by_cases hp : path = cfg.dest
        · simp [hp]
        · simp only [hp, if_false]
          cases hr : remove st.fs path with
          | none => rfl
          | some fs1 =>
            have hlt := lastIndex_lt path i hl
            have hlen : (path.take i).length = i := by simp; omega
            simp only
            rw [deleteDirectoryAux_fuel cfg.dest path.length ((path.take i).length + 1)
              (path.take i) _ (by omega) (by omega)]
    · simp [hd]

/-- A returned error means that nothing happened. -/
theorem deleteDirectory_failed (cfg : Config) (path : Path) (st s : State)
    (h : deleteDirectory cfg path st = .failed s) : s = st := by
  rw [deleteDirectory_eq] at h
  cases hs : stat st.fs path with
  | none => simp [hs] at h
  | some dir =>
    simp only [hs] at h
    by_cases hd : dir.isDir = true
    · simp only [hd, if_true] at h
      cases hl : lastIndex path with
      | none => simp [hl] at h
      | some i =>
        simp only [hl] at h
        by_cases hp : path = cfg.dest
        · simp [hp] at h
        · simp only [hp, if_false] at h
          cases hr : remove st.fs path with
          | none => simp only [hr, Outcome.failed.injEq] at h; exact h.symm
          | some fs1 =>
            simp only [hr] at h
            cases ho : deleteDirectory cfg (path.take i)
                { st with fs := fs1, deleted := st.deleted + 1 } with
            | ok s1 => rw [ho] at h; simp [ignoreError] at h
            | failed s1 => rw [ho] at h; simp [ignoreError] at h
            | panicked s1 => rw [ho] at h; simp [ignoreError] at h
            | outOfFuel s1 => rw [ho] at h; simp [ignoreError] at h
    · simp only [hd, Bool.false_eq_true, if_false, Outcome.failed.injEq] at h
      exact h.symm

theorem nodeAt_nil (fs : FS) : nodeAt fs [] = some ⟨true, 0, []⟩ := by simp [nodeAt]

theorem stat_dir_of_keeps (fs fs1 : FS) (p : Path) (fi : FileInfo)
    (hk : ∀ key n, lookup fs key = some n → ∃ n1, lookup fs1 key = some n1 ∧ n1.isDir = n.isDir)
    (hs : stat fs p = some fi) (hd : fi.isDir = true) :
    ∃ fi1, stat fs1 p = some fi1 ∧ fi1.isDir = true := by
  obtain ⟨hp, n, h1, h2⟩ := (stat_eq_some fs p fi).1 hs
  by_cases hq : resolve p = []
  · refine ⟨⟨baseName (resolve p), true, 0⟩, ?_, rfl⟩
    rw [stat_eq_some]
    exact ⟨hp, ⟨true, 0, []⟩, by rw [hq, nodeAt_nil], rfl⟩
  · rw [nodeAt_of_ne_nil fs _ hq] at h1
    obtain ⟨n1, hn1, hd1⟩ := hk _ n h1
    refine ⟨⟨baseName (resolve p), n1.isDir, n1.modTime⟩, ?_, ?_⟩
    · rw [stat_eq_some]
      exact ⟨hp, n1, by rw [nodeAt_of_ne_nil fs1 _ hq, hn1], rfl⟩
    · show n1.isDir = true
      rw [hd1]; rw [h2] at hd; exact hd

theorem ignoreError_of_not_failed (o : Outcome) (h : ∀ s, o ≠ .failed s) :
    ignoreError o = o := by
  cases o with
  | failed s => exact absurd rfl (h s)
  | ok s => rfl
  | panicked s => rfl
  | outOfFuel s => rfl

theorem runInv_mono {cfg : Config} {fs : FS} {c c1 : Nat} (h : RunInv cfg fs c) (hc : c ≤ c1) :
    RunInv cfg fs c1 :=
  ⟨h.wf, fun k n hn => le_trans (h.time k n hn) hc, h.src⟩

/-- Every path the walker forms below the root is written `parent\\name`. -/
theorem joinPath_form (p : Path) (n : Name) (hp : p ≠ []) (hn : validName n = true) :
    ∃ P, joinPath p n = P ++ bslash :: n := by
  unfold joinPath
  rw [if_neg hp]
  have hr : resolve (p ++ bslash :: n) = resolve p ++ [n] := resolve_append_name p n hn
  have hnn : n ≠ [] := ((validName_iff n).1 hn).1
  have hbody : ∃ Q, [bslash].intercalate (resolve p ++ [n]) = Q ++ n ∧
      (resolve p ≠ [] → ∃ Q1, Q = Q1 ++ [bslash]) ∧ (resolve p = [] → Q = []) := by
    generalize resolve p = cs
    induction cs with
    | nil => exact ⟨[], by simp [List.intercalate], fun h => absurd rfl h, fun _ => rfl⟩
    | cons x xs ih =>
      obtain ⟨Q, hQ, h1, h2⟩ := ih
      cases xs with
      | nil =>
        refine ⟨x ++ [bslash], ?_, fun _ => ⟨x, rfl⟩, fun h => by cases h⟩
        simp [List.intercalate, List.intersperse]
      | cons y ys =>
        obtain ⟨Q1, hQ1⟩ := h1 (by simp)
        refine ⟨x ++ bslash :: Q, ?_, fun _ => ⟨x ++ bslash :: Q1, by rw [hQ1]; simp⟩, fun h => by cases h⟩
        have e : [bslash].intercalate ((x :: y :: ys) ++ [n]) =
            x ++ bslash :: [bslash].intercalate ((y :: ys) ++ [n]) := by
          simp [List.intercalate, List.intersperse]
        rw [e, hQ]
        simp
  obtain ⟨Q, hQ, h1, h2⟩ := hbody
  cases p with
  | nil => exact absurd rfl hp
  | cons c cs =>
    unfold cleanPath
    simp only [List.cons_append]
    have hr1 : resolve (c :: (cs ++ bslash :: n)) = resolve (c :: cs) ++ [n] := hr
    rw [hr1, hQ]
    by_cases hc : isSep c = true
    · simp only [hc, if_true]
      by_cases h0 : resolve (c :: cs) = []
      · rw [h2 h0]; exact ⟨[], rfl⟩
      · obtain ⟨Q1, hQ1⟩ := h1 h0
        exact ⟨bslash :: Q1, by rw [hQ1]; simp⟩
    · have h0 : resolve (c :: cs) ≠ [] := resolve_ne_nil_of_head c cs (by simpa using hc)
      obtain ⟨Q1, hQ1⟩ := h1 h0
      have hne : Q ++ n ≠ [] := by simp [hnn]
      simp only [hc, hne, if_false, Bool.false_eq_true]
      exact ⟨Q1, by rw [hQ1]; simp⟩

/-! ## The claims -/

/-- C1. Copy decision of the loop over `sourceMatching` (lines 97 to 116).  For a
candidate `file` that exists, `fileDetails` its `FileInfo`, and the target
`path\name`: the iteration copies the file to the target (it runs `copyFile` and
adds one to `copied` and to `dirCopy`) when the target does not exist, or
`maintainOriginal` is off and the target is strictly older than the file; in
every other case it leaves the state as it is.  In particular, with
`maintainOriginal` off a target of equal or later time is not copied over, and
with `maintainOriginal` on an existing target is never copied over. -/
theorem copy_decision (cfg : Config) (path file : Path) (rest : List Path) (st : State)
    (dirCopy : Nat) (fileDetails : FileInfo) (hF : stat st.fs file = some fileDetails) :
    ((stat st.fs (path ++ bslash :: fileDetails.name) = none ∨
        (cfg.maintainOriginal = false ∧
          ∃ d, stat st.fs (path ++ bslash :: fileDetails.name) = some d ∧
            d.modTime < fileDetails.modTime)) →
      copyLoop cfg path (file :: rest) st dirCopy =
        copyLoop cfg path rest
          { st with fs := copyFile st.fs st.clock file (path ++ bslash :: fileDetails.name),
                    clock := st.clock + 1, copied := st.copied + 1 } (dirCopy + 1)) ∧
    (¬ (stat st.fs (path ++ bslash :: fileDetails.name) = none ∨
        (cfg.maintainOriginal = false ∧
          ∃ d, stat st.fs (path ++ bslash :: fileDetails.name) = some d ∧
            d.modTime < fileDetails.modTime)) →
      copyLoop cfg path (file :: rest) st dirCopy = copyLoop cfg path rest st dirCopy) ∧
    (cfg.maintainOriginal = false →
      ∀ d, stat st.fs (path ++ bslash :: fileDetails.name) = some d →
        fileDetails.modTime ≤ d.modTime →
        copyLoop cfg path (file :: rest) st dirCopy = copyLoop cfg path rest st dirCopy) ∧
    (cfg.maintainOriginal = true →
      ∀ d, stat st.fs (path ++ bslash :: fileDetails.name) = some d →
        copyLoop cfg path (file :: rest) st dirCopy = copyLoop cfg path rest st dirCopy) := by
  have hyes : (stat st.fs (path ++ bslash :: fileDetails.name) = none ∨
        (cfg.maintainOriginal = false ∧
          ∃ d, stat st.fs (path ++ bslash :: fileDetails.name) = some d ∧
            d.modTime < fileDetails.modTime)) →
      shouldCopy cfg (stat st.fs (path ++ bslash :: fileDetails.name)) fileDetails = true := by
    rintro (h | ⟨hm, d, hd, hlt⟩)
    · rw [h]; rfl
    · rw [hd]; simp [shouldCopy, hm, hlt]
  have hno : ¬ (stat st.fs (path ++ bslash :: fileDetails.name) = none ∨
        (cfg.maintainOriginal = false ∧
          ∃ d, stat st.fs (path ++ bslash :: fileDetails.name) = some d ∧
            d.modTime < fileDetails.modTime)) →
      copyLoop cfg path (file :: rest) st dirCopy = copyLoop cfg path rest st dirCopy := by
    intro h
    have : shouldCopy cfg (stat st.fs (path ++ bslash :: fileDetails.name)) fileDetails = false := by
      cases hd : stat st.fs (path ++ bslash :: fileDetails.name) with
      | none => exact absurd (Or.inl hd) h
      | some d =>
        simp only [shouldCopy, Bool.and_eq_false_imp, Bool.not_eq_eq_eq_not, Bool.not_true,
          decide_eq_false_iff_not]
        intro hm hlt
        exact h (Or.inr ⟨hm, d, hd, hlt⟩)
    rw [copyLoop]
    simp [hF, this]
  refine ⟨?_, hno, ?_, ?_⟩
  · intro h
    rw [copyLoop]
    simp [hF, hyes h]
  · intro _ d hd hle
    apply hno
    rintro (h | ⟨_, d1, hd1, hlt⟩)
    · rw [hd] at h; simp at h
    · rw [hd] at hd1
      simp only [Option.some.injEq] at hd1
      subst hd1
      omega
  · intro hm d hd
    apply hno
    rintro (h | ⟨hm1, _⟩)
    · rw [hd] at h; simp at h
    · rw [hm] at hm1; simp at hm1

/-- C1, at a concrete input: the source `orig\A\folder.jpg` dated 7 is copied
over the target `music\A\folder.jpg` dated 3. -/
theorem copy_decision_witness :
    stat stLonger.fs "orig\\A\\folder.jpg".data = some ⟨"folder.jpg".data, false, 7⟩ ∧
    copyLoop cfgMusic "music\\A".data ["orig\\A\\folder.jpg".data] stLonger 0 =
      (.ok ⟨fsLongerAfter, 101, 1, 0, 0, 0⟩, 1) :=
  ⟨by decide,
   ((copy_decision cfgMusic "music\\A".data "orig\\A\\folder.jpg".data [] stLonger 0
      ⟨"folder.jpg".data, false, 7⟩ (by decide)).1
      (Or.inr ⟨rfl, ⟨"folder.jpg".data, false, 3⟩, by decide, by decide⟩)).trans (by decide)⟩

/-- C2, the code at the failing input: the leaf `music\A` holds a `folder.jpg`
of five bytes that is older than the two-byte `folder.jpg` of the source.  The
visit copies (`copied` becomes one), and afterwards the target holds the two
bytes of the source followed by the last three bytes of the old target, not
the content of the source. -/
theorem copy_keeps_old_tail :
    visit cfgMusic "music\\A".data (some ⟨"A".data, true, 0⟩) stLonger =
      .ok ⟨fsLongerAfter, 101, 1, 0, 0, 0⟩ ∧
    sourceBytes fsLonger "orig\\A\\folder.jpg".data = [8, 9] ∧
    lookup fsLongerAfter ["music".data, "A".data, "folder.jpg".data] =
      some ⟨false, 100, [8, 9, 3, 4, 5]⟩ := by
  decide

/-- C3, the code at the failing input: the destination root is given as
`top\x\y/music`, with a forward slash.  The walk passes the empty leaf
`top\x\y\music\A`; the cascade removes it, then the destination root itself,
then `top\x\y`, which lies outside the destination tree, and stops at the
non-empty `top\x`.  The run returns with `deleted` at three. -/
theorem cascade_removes_root :
    stat stSlash.fs cfgSlash.dest = some ⟨"music".data, true, 0⟩ ∧
    syncRun cfgSlash 7 stSlash =
      .ok ⟨[(["top".data], dirNode),
            (["top".data, "x".data], dirNode),
            (["top".data, "x".data, "keep.txt".data], ⟨false, 5, [1]⟩),
            (["top".data, "orig".data], dirNode)], 100, 0, 0, 0, 3⟩ ∧
    stat (syncRun cfgSlash 7 stSlash).state.fs cfgSlash.dest = none ∧
    stat (syncRun cfgSlash 7 stSlash).state.fs "top\\x\\y".data = none := by
  decide

/-- C10, the code at the failing input: the destination root `music` is an
existing directory whose path holds no backslash.  `deleteDirectory` on it
crashes at the slice of line 156 instead of returning nil.  A run reaches that
call: with `before` on, the cascade started at the empty leaf `music\A` removes
the leaf and crashes at the root. -/
theorem root_without_separator_crashes :
    stat stLonger.fs cfgMusic.dest = some ⟨"music".data, true, 0⟩ ∧
    deleteDirectory cfgMusic cfgMusic.dest stLonger = .panicked stLonger ∧
    syncRun cfgBefore 5 (stOn fsFuture) =
      .panicked ⟨[(["music".data], dirNode),
                  (["orig".data], dirNode),
                  (["orig".data, "A".data], dirNode),
                  (["orig".data, "A".data, "folder.jpg".data], ⟨false, 500, [8, 9]⟩)],
                 100, 0, 0, 0, 1⟩ := by
  decide

/-- C6, counterexample: two inputs at which the destination root is a prefix of
the leaf path and `sourcePath` is not the source root followed by the leaf path
without that prefix.  First the leaf is the destination root itself: the
result is `orig\music`, not `orig`.  Second the source root is written with a
forward slash: the result is `a\b\x`, not `a/b\x`. -/
theorem sourcePath_counterexample :
    (cfgMusic.dest <+: "music".data ∧
      sourcePath cfgMusic "music".data = "orig\\music".data ∧
      sourcePath cfgMusic "music".data ≠
        cfgMusic.source ++ ("music".data).drop cfgMusic.dest.length) ∧
    (cfgForward.dest <+: "d\\x".data ∧
      sourcePath cfgForward "d\\x".data = "a\\b\\x".data ∧
      sourcePath cfgForward "d\\x".data ≠
        cfgForward.source ++ ("d\\x".data).drop cfgForward.dest.length) := by
  decide

/-- C6 (amended). Structural mapping: for every source root, every destination
root `D` and every leaf path that consists of `D` with each forward slash
replaced by a backslash, a backslash and a rest, `sourcePath` is the source
root with each forward slash replaced by a backslash, followed by the relative
key: the leaf path without its first `|D|` characters. -/
theorem sourcePath_below_dest (cfg : Config) (rest : Path) :
    sourcePath cfg (replaceSlash cfg.dest ++ bslash :: rest) =
      replaceSlash cfg.source ++
        (replaceSlash cfg.dest ++ bslash :: rest).drop cfg.dest.length := by
  have hlen : (replaceSlash cfg.dest).length = cfg.dest.length := by simp [replaceSlash]
  have h1 : folderPath cfg (replaceSlash cfg.dest ++ bslash :: rest) = rest := by
    unfold folderPath
    have := trimPrefix_append (replaceSlash cfg.dest ++ [bslash]) rest
    simpa using this
  have h2 : (replaceSlash cfg.dest ++ bslash :: rest).drop cfg.dest.length = bslash :: rest := by
    rw [← hlen]; simp
  unfold sourcePath
  rw [h1, h2]

end FileCopier
